import Mathlib

/-!
# LibTomMath `tommath.h`: configuration, constants and basic predicates

A shallow embedding of the public header `tommath.h`.  The header is mostly
preprocessor logic, so the embedding is a function from the set of macros that
are defined when the header is read (`Defines`) to the configuration the header
produces (`Header`), followed by the constant macros and the two predicate
macros `mp_iszero` / `mp_isneg` over the `mp_int` record.
-/

namespace Tommath

/-! ## Platform constants (from `<limits.h>` / the ABI, not from the header) -/

/-- Bits per byte, `CHAR_BIT` of `<limits.h>`; `uint8_t` exists only when it is 8. -/
def CHAR_BIT : Nat := 8

/-- Width in bits of `int` and `unsigned int`. -/
def INT_BIT : Nat := 32

/-- Largest value of `int`. -/
def INT_MAX : Int := 2 ^ (INT_BIT - 1) - 1

/-- Smallest value of `int`. -/
def INT_MIN : Int := -(2 ^ (INT_BIT - 1))

/-! ## The preprocessor state -/

/-- The macros the header tests with `defined(...)`, `#ifdef` or `#ifndef`, as
they stand when the header starts to be read (set by the compiler or the user).
`MP_DIGIT_BIT` and `MP_PREC` carry a value when defined.  The file
`tommath_class.h` included on line 19 is not among the sources and is taken to
leave these macros as they are. -/
structure Defines where
  LTM_NO_FILE : Bool := false
  MP_NO_FILE : Bool := false
  _MSC_VER : Bool := false
  __LLP64__ : Bool := false
  __e2k__ : Bool := false
  __LCC__ : Bool := false
  __x86_64__ : Bool := false
  _M_X64 : Bool := false
  _M_AMD64 : Bool := false
  __powerpc64__ : Bool := false
  __ppc64__ : Bool := false
  __PPC64__ : Bool := false
  __s390x__ : Bool := false
  __arch64__ : Bool := false
  __aarch64__ : Bool := false
  __sparcv9 : Bool := false
  __sparc_v9__ : Bool := false
  __sparc64__ : Bool := false
  __ia64 : Bool := false
  __ia64__ : Bool := false
  __itanium__ : Bool := false
  _M_IA64 : Bool := false
  __LP64__ : Bool := false
  _LP64 : Bool := false
  __64BIT__ : Bool := false
  __GNUC__ : Bool := false
  MP_8BIT : Bool := false
  MP_16BIT : Bool := false
  MP_32BIT : Bool := false
  MP_64BIT : Bool := false
  MP_31BIT : Bool := false
  MP_28BIT : Bool := false
  MP_LOW_MEM : Bool := false
  MP_SIZEOF_MP_DIGIT : Option Nat := none
  MP_DIGIT_BIT : Option Nat := none
  MP_PREC : Option Int := none

/-- The fixed-width unsigned types the header picks `mp_digit` and `mp_word`
from; `uint128_t` stands for `unsigned long __attribute__((mode(TI)))`. -/
inductive CUInt where
  | uint8_t
  | uint16_t
  | uint32_t
  | uint64_t
  | uint128_t
  deriving DecidableEq, Repr

/-- The operand `sizeof(t)`, in bytes. -/
def CUInt.sizeof : CUInt → Nat
  | .uint8_t => 1
  | .uint16_t => 2
  | .uint32_t => 4
  | .uint64_t => 8
  | .uint128_t => 16

/-- Width of the type in bits, `CHAR_BIT * sizeof(t)`. -/
def CUInt.bits (t : CUInt) : Nat := CHAR_BIT * t.sizeof

/-- Lines 10-13: `LTM_NO_FILE` is a deprecated spelling of `MP_NO_FILE`. -/
def no_file (d : Defines) : Defines :=
  if d.LTM_NO_FILE then { d with MP_NO_FILE := true } else d

/-- Lines 25-28: compilers without a 128-bit word type fall back to `MP_32BIT`. -/
def no_128bit (d : Defines) : Defines :=
  if d._MSC_VER || d.__LLP64__ || d.__e2k__ || d.__LCC__ then
    { d with MP_32BIT := true }
  else d

/-- The condition of the `#if` on lines 31-36: one of the 64-bit platform
macros is defined. -/
def platform64 (d : Defines) : Bool :=
  d.__x86_64__ || d._M_X64 || d._M_AMD64 ||
  d.__powerpc64__ || d.__ppc64__ || d.__PPC64__ ||
  d.__s390x__ || d.__arch64__ || d.__aarch64__ ||
  d.__sparcv9 || d.__sparc_v9__ || d.__sparc64__ ||
  d.__ia64 || d.__ia64__ || d.__itanium__ || d._M_IA64 ||
  d.__LP64__ || d._LP64 || d.__64BIT__

/-- Lines 30-46: detect 64-bit mode. -/
def detect64 (d : Defines) : Defines :=
  if platform64 d then
    if !(d.MP_32BIT || d.MP_16BIT || d.MP_8BIT) then
      if d.__GNUC__ then { d with MP_64BIT := true }
      else { d with MP_32BIT := true }
    else d
  else d

/-- What a translation unit sees once the header has been read: the macro
table and the two typedefs. -/
structure Header where
  defs : Defines
  mp_digit : CUInt
  mp_word : CUInt

/-- Lines 56-90: the `#ifdef MP_8BIT ... #elif ... #else ... #endif` chain that
chooses the digit and word types.  The two `#error` directives reject the
translation unit.  A `#define MP_DIGIT_BIT` met while the macro is already
defined replaces the earlier definition. -/
def select_types (d : Defines) : Except String Header :=
  if d.MP_8BIT then
    if d.MP_DIGIT_BIT.isSome then
      .error "You must not define MP_DIGIT_BIT when using MP_8BIT"
    else
      .ok { defs := { d with MP_SIZEOF_MP_DIGIT := some 1 },
            mp_digit := .uint8_t, mp_word := .uint16_t }
  else if d.MP_16BIT then
    if d.MP_DIGIT_BIT.isSome then
      .error "You must not define MP_DIGIT_BIT when using MP_16BIT"
    else
      .ok { defs := { d with MP_SIZEOF_MP_DIGIT := some 2 },
            mp_digit := .uint16_t, mp_word := .uint32_t }
  else if d.MP_64BIT then
    .ok { defs := { d with MP_DIGIT_BIT := some 60 },
          mp_digit := .uint64_t, mp_word := .uint128_t }
  else if d.MP_31BIT then
    .ok { defs := { d with MP_DIGIT_BIT := some 31 },
          mp_digit := .uint32_t, mp_word := .uint64_t }
  else
    .ok { defs := { d with MP_DIGIT_BIT := some 28, MP_28BIT := true },
          mp_digit := .uint32_t, mp_word := .uint64_t }

/-- Lines 92-95: when `MP_DIGIT_BIT` is still undefined it becomes
`((CHAR_BIT * MP_SIZEOF_MP_DIGIT) - 1)`; the expression needs
`MP_SIZEOF_MP_DIGIT` to be defined. -/
def default_digit_bit (h : Header) : Except String Header :=
  match h.defs.MP_DIGIT_BIT with
  | some _ => .ok h
  | none =>
    match h.defs.MP_SIZEOF_MP_DIGIT with
    | some s => .ok { h with defs := { h.defs with MP_DIGIT_BIT := some (CHAR_BIT * s - 1) } }
    | none => .error "MP_SIZEOF_MP_DIGIT undeclared"

/-- Lines 142-151: the default precision, unless the user supplied `MP_PREC`. -/
def default_prec (d : Defines) : Defines :=
  match d.MP_PREC with
  | some _ => d
  | none =>
    if !d.MP_LOW_MEM then { d with MP_PREC := some 32 }
    else if d.MP_8BIT then { d with MP_PREC := some 16 }
    else { d with MP_PREC := some 8 }

/-- The macro table on which the type-selection chain runs (after lines 10-46). -/
def detected (d : Defines) : Defines := detect64 (no_128bit (no_file d))

/-- The header read top to bottom, as far as its conditional sections go.  The
result `.ok` says that none of the `#error` directives of these sections is
reached; it says nothing about the declarations further down compiling. -/
def tommath_h (d : Defines) : Except String Header := do
  let h ← select_types (detected d)
  let h ← default_digit_bit h
  pure { h with defs := default_prec h.defs }

/-- The value of the macro `MP_DIGIT_BIT` after the header. -/
def MP_DIGIT_BIT (h : Header) : Nat := h.defs.MP_DIGIT_BIT.getD 0

/-- The value of the macro `MP_PREC` after the header. -/
def MP_PREC (h : Header) : Int := h.defs.MP_PREC.getD 0

/-! ## Checked C arithmetic for the constant expressions

Every operand of the constant expressions of the header is non-negative, so values
are naturals.  An operation yields `none` when its mathematical result is not
representable in the type it is computed in (undefined behaviour for `int`,
wrap-around for an unsigned type) or when a shift count is out of range: a
result `some v` therefore is the exact value, reached without wrap-around. -/

/-- The types arithmetic is carried out in, after integer promotion. -/
inductive CType where
  | int
  | unsigned (bits : Nat)
  deriving DecidableEq, Repr

/-- Width of the type in bits. -/
def CType.width : CType → Nat
  | .int => INT_BIT
  | .unsigned b => b

/-- Whether the non-negative value `v` is representable in the type. -/
def CType.fits : CType → Nat → Bool
  | .int, v => decide (v < 2 ^ (INT_BIT - 1))
  | .unsigned b, v => decide (v < 2 ^ b)

/-- Integer promotion of an operand of unsigned type `t`: to `int` when `int`
holds every value of `t`, otherwise the type is kept. -/
def promote (t : CUInt) : CType :=
  if t.bits < INT_BIT then .int else .unsigned t.bits

/-- The cast `(t)v` of a non-negative constant to the unsigned type `t`. -/
def cast (t : CUInt) (v : Nat) : Nat := v % 2 ^ t.bits

/-- The value `v` as a result of type `t`, when representable. -/
def checked (t : CType) (v : Nat) : Option Nat :=
  if t.fits v then some v else none

/-- The expression `a << b` computed in type `t`. -/
def shl (t : CType) (a b : Nat) : Option Nat :=
  if b < t.width then checked t (a * 2 ^ b) else none

/-- The expression `a - b` computed in type `t` (non-negative results only). -/
def sub (t : CType) (a b : Nat) : Option Nat :=
  if b ≤ a then checked t (a - b) else none

/-- The expression `a + b` computed in type `t`. -/
def add (t : CType) (a b : Nat) : Option Nat := checked t (a + b)

/-- The expression `a * b` computed in type `t`. -/
def mul (t : CType) (a b : Nat) : Option Nat := checked t (a * b)

/-! ## Constant macros -/

/-- Line 97: `((((mp_digit)1)<<((mp_digit)MP_DIGIT_BIT))-((mp_digit)1))`. -/
def MP_MASK (h : Header) : Option Nat := do
  let s ← shl (promote h.mp_digit) (cast h.mp_digit 1) (cast h.mp_digit (MP_DIGIT_BIT h))
  sub (promote h.mp_digit) s (cast h.mp_digit 1)

/-- Line 98: `#define MP_DIGIT_MAX MP_MASK`. -/
def MP_DIGIT_MAX (h : Header) : Option Nat := MP_MASK h

def MP_LT : Int := -1
def MP_EQ : Int := 0
def MP_GT : Int := 1

def MP_ZPOS : Int := 0
def MP_NEG : Int := 1

def MP_OKAY : Int := 0
def MP_ERR : Int := -1
def MP_MEM : Int := -2
def MP_VAL : Int := -3
def MP_RANGE : Int := MP_VAL
def MP_ITER : Int := -4

def MP_YES : Int := 1
def MP_NO : Int := 0

def MP_PRIME_BBS : Int := 0x0001
def MP_PRIME_SAFE : Int := 0x0002
def MP_PRIME_2MSB_ON : Int := 0x0008

/-- Line 154: `(1u << (((CHAR_BIT * sizeof(mp_word)) - (2 * MP_DIGIT_BIT)) + 1))`.
The product with `sizeof`, the difference and the sum are computed in `size_t`
(of `size_bits` bits, at least as wide as `int`), `2 * MP_DIGIT_BIT` in `int`,
and the shift in `unsigned int`, the type of `1u`. -/
def PRIVATE_MP_WARRAY (size_bits : Nat) (h : Header) : Option Nat := do
  let word_bits ← mul (.unsigned size_bits) CHAR_BIT h.mp_word.sizeof
  let twice ← mul .int 2 (MP_DIGIT_BIT h)
  let diff ← sub (.unsigned size_bits) word_bits twice
  let count ← add (.unsigned size_bits) diff 1
  shl (.unsigned INT_BIT) 1 count

/-! ## The `mp_int` record and its predicate macros -/

/-- Lines 203-207: `typedef struct { int used, alloc, sign; mp_digit *dp; } mp_int;`
The digit array is read through `dp i` for the digit at index `i`. -/
structure mp_int where
  used : Int
  alloc : Int
  sign : Int
  dp : Nat → Nat

/-- Line 242: `#define mp_iszero(a) (((a)->used == 0) ? MP_YES : MP_NO)`. -/
def mp_iszero (a : mp_int) : Int := if a.used = 0 then MP_YES else MP_NO

/-- Line 245: `#define mp_isneg(a) (((a)->sign != MP_ZPOS) ? MP_YES : MP_NO)`. -/
def mp_isneg (a : mp_int) : Int := if a.sign ≠ MP_ZPOS then MP_YES else MP_NO

/-- The magnitude held in the low `n` digits: the sum over `i < n` of
`dp[i] * 2^(B*i)`. -/
def mp_mag (B : Nat) (dp : Nat → Nat) : Nat → Nat
  | 0 => 0
  | n + 1 => mp_mag B dp n + dp n * 2 ^ (B * n)

/-- The integer an `mp_int` denotes with `B`-bit digits: the magnitude of its
`used` low digits, negated when the sign field is `MP_NEG`. -/
def mp_value (B : Nat) (a : mp_int) : Int :=
  (if a.sign = MP_NEG then -1 else 1) * (mp_mag B a.dp a.used.toNat : Int)

/-- Invariant: `used` is not negative. -/
def used_ok (a : mp_int) : Prop := 0 ≤ a.used

/-- Invariant: every digit at an index below `used` is below `2^B`. -/
def digits_ok (B : Nat) (a : mp_int) : Prop := ∀ i < a.used.toNat, a.dp i < 2 ^ B

/-- Invariant: the digit at index `used - 1` is non-zero when `used > 0`. -/
def top_ok (a : mp_int) : Prop := 0 < a.used → a.dp (a.used.toNat - 1) ≠ 0

/-- Invariant: the sign field is `MP_ZPOS` or `MP_NEG`, and `MP_ZPOS` for zero. -/
def sign_ok (a : mp_int) : Prop :=
  (a.sign = MP_ZPOS ∨ a.sign = MP_NEG) ∧ (a.used = 0 → a.sign = MP_ZPOS)

instance (a : mp_int) : Decidable (used_ok a) := by unfold used_ok; infer_instance
instance (B : Nat) (a : mp_int) : Decidable (digits_ok B a) := by
  unfold digits_ok; infer_instance
instance (a : mp_int) : Decidable (top_ok a) := by unfold top_ok; infer_instance
instance (a : mp_int) : Decidable (sign_ok a) := by unfold sign_ok; infer_instance

/-! ## Prime generation macro -/

/-- A value computed in `int`: present only when representable. -/
def int_checked (v : Int) : Option Int :=
  if INT_MIN ≤ v ∧ v ≤ INT_MAX then some v else none

/-- The tokens of the integer expressions a caller may write as an argument of
a macro: constants, parentheses and the binary and conditional operators. -/
inductive Tok where
  | num (n : Nat)
  | lparen
  | rparen
  | star
  | plus
  | minus
  | lt
  | gt
  | eqeq
  | neq
  | amp
  | caret
  | bar
  | andand
  | oror
  | question
  | colon
  deriving DecidableEq, Repr

/-- The precedence level of a binary operator token in the C grammar (a higher
level binds tighter); `none` for a token that is no binary operator. -/
def Tok.prec : Tok → Option Nat
  | .star => some 10
  | .plus => some 9
  | .minus => some 9
  | .lt => some 7
  | .gt => some 7
  | .eqeq => some 6
  | .neq => some 6
  | .amp => some 5
  | .caret => some 4
  | .bar => some 3
  | .andand => some 2
  | .oror => some 1
  | _ => none

/-- The value of `x op y` for a binary operator token, over the integers. -/
def Tok.apply : Tok → Int → Int → Int
  | .star, x, y => x * y
  | .plus, x, y => x + y
  | .minus, x, y => x - y
  | .lt, x, y => if x < y then 1 else 0
  | .gt, x, y => if x > y then 1 else 0
  | .eqeq, x, y => if x = y then 1 else 0
  | .neq, x, y => if x ≠ y then 1 else 0
  | .amp, x, y => Int.land x y
  | .caret, x, y => Int.xor x y
  | .bar, x, y => Int.lor x y
  | .andand, x, y => if x ≠ 0 ∧ y ≠ 0 then 1 else 0
  | .oror, x, y => if x ≠ 0 ∨ y ≠ 0 then 1 else 0
  | _, x, _ => x

/-- What the expression reader is in the middle of: a primary expression, an
expression whose binary operators are of level `min` or above, or the operators
that follow a left operand of value `lhs`. -/
inductive Mode where
  | primary
  | expr (min : Nat)
  | rest (min : Nat) (lhs : Int)

/-- The C expression grammar read off a token sequence (precedence climbing,
binary operators associating to the left, `?:` below them all and to the
right), giving the value and the tokens left over.  The first argument bounds
the number of nested steps. -/
def c_parse : Nat → Mode → List Tok → Option (Int × List Tok)
  | 0, _, _ => none
  | _ + 1, .primary, .num n :: ts => some (n, ts)
  | f + 1, .primary, .lparen :: ts =>
    match c_parse f (.expr 0) ts with
    | some (v, .rparen :: ts2) => some (v, ts2)
    | _ => none
  | _ + 1, .primary, _ => none
  | f + 1, .expr p, ts =>
    match c_parse f .primary ts with
    | some (v, ts2) => c_parse f (.rest p v) ts2
    | none => none
  | _ + 1, .rest _ lhs, [] => some (lhs, [])
  | f + 1, .rest p lhs, .question :: ts =>
    if p = 0 then
      match c_parse f (.expr 0) ts with
      | some (x, .colon :: ts2) =>
        match c_parse f (.expr 0) ts2 with
        | some (y, ts3) => some (if lhs ≠ 0 then x else y, ts3)
        | none => none
      | _ => none
    else some (lhs, .question :: ts)
  | f + 1, .rest p lhs, t :: ts =>
    match t.prec with
    | some q =>
      if p ≤ q then
        match c_parse f (.expr (q + 1)) ts with
        | some (rhs, ts2) => c_parse f (.rest p (t.apply lhs rhs)) ts2
        | none => none
      else some (lhs, t :: ts)
    | none => some (lhs, t :: ts)

/-- The value of a token sequence that is one complete expression. -/
def c_eval (ts : List Tok) : Option Int :=
  match c_parse (4 * ts.length + 4) (.expr 0) ts with
  | some (v, []) => some v
  | _ => none

/-- Line 613: `mp_prime_random(a, t, size, bbs, cb, dat)` expands to
`mp_prime_random_ex(a, t, ((size) * 8) + 1, (bbs==1)?MP_PRIME_BBS:0, cb, dat)`.
The preprocessor pastes the tokens of the arguments `size` and `bbs` into the
replacement text as they are: `size` inside parentheses of its own, `bbs` right
before `==1`.  The callee is only declared in the header, so it is a parameter
here; the bit size is checked to be an `int`. -/
def mp_prime_random {α β γ ρ : Type} (mp_prime_random_ex : α → Int → Int → Int → β → γ → ρ)
    (a : α) (t : Int) (size bbs : List Tok) (cb : β) (dat : γ) : Option ρ := do
  let bits ← c_eval ([.lparen, .lparen] ++ size ++
    [.rparen, .star, .num 8, .rparen, .plus, .num 1])
  let bits ← int_checked bits
  let flags ← c_eval ([.lparen] ++ bbs ++
    [.eqeq, .num 1, .rparen, .question, .num MP_PRIME_BBS.toNat, .colon, .num 0])
  pure (mp_prime_random_ex a t bits flags cb dat)

/-! ## Comba column accumulation -/

/-- Modelled from the spec: the Comba multiplier itself is not part of the
header; the spec describes it as "column-wise accumulation in double-width
accumulator".  One column adds the products `x_i * y_i` of its digit pairs to
the value `carry` left in the accumulator by the previous column.  The sum is
taken over the naturals, so an overflow of the accumulator shows as a value of
at least `2^word_bits`. -/
def comba_column (carry : Nat) (xs ys : List Nat) : Nat :=
  carry + (List.zipWith (fun x y => x * y) xs ys).sum

/-- Modelled from the spec: the carry a column hands to the next one is its
accumulator shifted down by one digit, `acc >> MP_DIGIT_BIT`. -/
def comba_carry (B : Nat) (acc : Nat) : Nat := acc / 2 ^ B

/-! ## Sample configurations -/

/-- The header as read with no configuration macro defined (28-bit digits). -/
def header_28bit : Header :=
  { defs := { MP_DIGIT_BIT := some 28, MP_28BIT := true, MP_PREC := some 32 },
    mp_digit := .uint32_t, mp_word := .uint64_t }

/-- The header as read with only `MP_8BIT` defined. -/
def header_8bit : Header :=
  { defs := { MP_8BIT := true, MP_SIZEOF_MP_DIGIT := some 1, MP_DIGIT_BIT := some 7,
              MP_PREC := some 32 },
    mp_digit := .uint8_t, mp_word := .uint16_t }

/-- A sample number: digits `[5, 1]`, negative, so `-(5 + 2^28)` with 28-bit digits. -/
def sample_neg : mp_int :=
  { used := 2, alloc := 32, sign := MP_NEG, dp := fun i => [5, 1].getD i 0 }

/-- A sample zero: no digit in use, sign `MP_ZPOS`. -/
def sample_zero : mp_int :=
  { used := 0, alloc := 32, sign := MP_ZPOS, dp := fun _ => 0 }

/-- The header as read with `MP_8BIT` and `MP_LOW_MEM` defined. -/
def header_8bit_low_mem : Header :=
  { defs := { MP_8BIT := true, MP_LOW_MEM := true, MP_SIZEOF_MP_DIGIT := some 1,
              MP_DIGIT_BIT := some 7, MP_PREC := some 16 },
    mp_digit := .uint8_t, mp_word := .uint16_t }

/-- The header as read with `MP_31BIT` and `MP_LOW_MEM` defined. -/
def header_31bit_low_mem : Header :=
  { defs := { MP_31BIT := true, MP_LOW_MEM := true, MP_DIGIT_BIT := some 31,
              MP_PREC := some 8 },
    mp_digit := .uint32_t, mp_word := .uint64_t }

/-- Invariant, in the words of the mask: every digit at an index below `used`
is at most `m` (the value of `MP_MASK`). -/
def digits_le (m : Nat) (a : mp_int) : Prop := ∀ i < a.used.toNat, a.dp i ≤ m

instance (m : Nat) (a : mp_int) : Decidable (digits_le m a) := by
  unfold digits_le; infer_instance

/-- A second record for `-(5 + 2^28)` with 28-bit digits: same `used`, sign and
low digits as `sample_neg`, another `alloc` and other digits from index 2 on. -/
def sample_neg_wide : mp_int :=
  { used := 2, alloc := 64, sign := MP_NEG, dp := fun i => [5, 1, 9].getD i 7 }

/-- The header as read by GCC on x86-64 (`__x86_64__` and `__GNUC__` defined). -/
def header_x86_64_gcc : Header :=
  { defs := { __x86_64__ := true, __GNUC__ := true, MP_64BIT := true,
              MP_DIGIT_BIT := some 60, MP_PREC := some 32 },
    mp_digit := .uint64_t, mp_word := .uint128_t }

/-- The header as read by GCC on 64-bit AIX (`__64BIT__` and `__GNUC__` defined). -/
def header_aix64_gcc : Header :=
  { defs := { __64BIT__ := true, __GNUC__ := true, MP_64BIT := true,
              MP_DIGIT_BIT := some 60, MP_PREC := some 32 },
    mp_digit := .uint64_t, mp_word := .uint128_t }

/-- The header as read by GCC on a 32-bit target (only `__GNUC__` defined). -/
def header_gcc_32 : Header :=
  { defs := { __GNUC__ := true, MP_DIGIT_BIT := some 28, MP_28BIT := true,
              MP_PREC := some 32 },
    mp_digit := .uint32_t, mp_word := .uint64_t }

/-- The header as read by Visual C++ on x64 (`_M_X64` and `_MSC_VER` defined). -/
def header_x64_msvc : Header :=
  { defs := { _M_X64 := true, _MSC_VER := true, MP_32BIT := true,
              MP_DIGIT_BIT := some 28, MP_28BIT := true, MP_PREC := some 32 },
    mp_digit := .uint32_t, mp_word := .uint64_t }

/-- The header as read by LCC on Elbrus (`__LP64__`, `__GNUC__`, `__e2k__` and
`__LCC__` defined). -/
def header_e2k_lcc : Header :=
  { defs := { __LP64__ := true, __GNUC__ := true, __e2k__ := true, __LCC__ := true,
              MP_32BIT := true, MP_DIGIT_BIT := some 28, MP_28BIT := true,
              MP_PREC := some 32 },
    mp_digit := .uint32_t, mp_word := .uint64_t }

/-! ## Theorems -/

theorem tommath_h_default : tommath_h {} = .ok header_28bit := rfl

theorem tommath_h_8bit : tommath_h { MP_8BIT := true } = .ok header_8bit := rfl

theorem mp_mag_top_pos (B : Nat) (dp : Nat → Nat) (n : Nat) (hn : dp n ≠ 0) :
    0 < mp_mag B dp (n + 1) := by
  have h1 : 0 < dp n := Nat.pos_of_ne_zero hn
  have h2 : 0 < dp n * 2 ^ (B * n) := Nat.mul_pos h1 (Nat.two_pow_pos _)
  simp only [mp_mag]
  omega

/-- Under the invariants the magnitude is zero exactly when no digit is in use. -/
theorem mp_mag_eq_zero_iff (B : Nat) (a : mp_int) (hu : used_ok a) (ht : top_ok a) :
    mp_mag B a.dp a.used.toNat = 0 ↔ a.used = 0 := by
  unfold used_ok at hu
  constructor
  · intro hz
    by_contra hne
    have hpos : 0 < a.used := lt_of_le_of_ne hu (Ne.symm hne)
    have htop := ht hpos
    obtain ⟨n, hn⟩ : ∃ n, a.used.toNat = n + 1 := ⟨a.used.toNat - 1, by omega⟩
    rw [hn] at hz htop
    have := mp_mag_top_pos B a.dp n (by simpa using htop)
    omega
  · intro h0
    simp [h0, mp_mag]

theorem mp_value_eq_zero_iff (B : Nat) (a : mp_int) (hu : used_ok a) (ht : top_ok a) :
    mp_value B a = 0 ↔ a.used = 0 := by
  rw [← mp_mag_eq_zero_iff B a hu ht]
  unfold mp_value
  split_ifs <;> simp

/-- C1: for an `mp_int` meeting the representation invariants (`used` not
negative, digits below `used` under `2^MP_DIGIT_BIT`, top digit non-zero),
`mp_iszero` yields `MP_YES` exactly when the denoted integer is 0, and `MP_NO`
otherwise. -/
theorem mp_iszero_spec (h : Header) (a : mp_int) (hu : used_ok a)
    (hd : digits_ok (MP_DIGIT_BIT h) a) (ht : top_ok a) :
    (mp_iszero a = MP_YES ↔ mp_value (MP_DIGIT_BIT h) a = 0) ∧
    (mp_iszero a = MP_NO ↔ mp_value (MP_DIGIT_BIT h) a ≠ 0) := by
  have _ := hd
  have hv := mp_value_eq_zero_iff (MP_DIGIT_BIT h) a hu ht
  by_cases h0 : a.used = 0 <;> simp [mp_iszero, MP_YES, MP_NO, h0, hv]

theorem mp_iszero_spec_witness :
    ((mp_iszero sample_neg = MP_YES ↔ mp_value (MP_DIGIT_BIT header_28bit) sample_neg = 0) ∧
     (mp_iszero sample_neg = MP_NO ↔ mp_value (MP_DIGIT_BIT header_28bit) sample_neg ≠ 0)) ∧
    mp_iszero sample_neg = MP_NO ∧ mp_value (MP_DIGIT_BIT header_28bit) sample_neg = -268435461 :=
  ⟨mp_iszero_spec header_28bit sample_neg (by decide) (by decide) (by decide),
   by decide, by decide⟩

/-- C2: for an `mp_int` meeting the representation invariants (sign `MP_ZPOS`
or `MP_NEG`, `MP_ZPOS` when `used == 0`, digits below `used` under
`2^MP_DIGIT_BIT`, top digit non-zero), `mp_isneg` yields `MP_YES` exactly when
the denoted integer is strictly negative, and `mp_iszero` and `mp_isneg` are
never both `MP_YES`. -/
theorem mp_isneg_spec (h : Header) (a : mp_int) (hu : used_ok a) (hs : sign_ok a)
    (hd : digits_ok (MP_DIGIT_BIT h) a) (ht : top_ok a) :
    (mp_isneg a = MP_YES ↔ mp_value (MP_DIGIT_BIT h) a < 0) ∧
    ¬ (mp_iszero a = MP_YES ∧ mp_isneg a = MP_YES) := by
  have _ := hd
  have hmag := mp_mag_eq_zero_iff (MP_DIGIT_BIT h) a hu ht
  obtain ⟨hsign, hzero⟩ := hs
  unfold mp_isneg mp_iszero mp_value MP_YES MP_NO
  unfold MP_ZPOS MP_NEG at *
  constructor
  · rcases hsign with hz | hn
    · simp [hz]
    · have hne : a.used ≠ 0 := fun h0 => by
        have := hzero h0
        omega
      have hpos : mp_mag (MP_DIGIT_BIT h) a.dp a.used.toNat ≠ 0 := fun hm => hne (hmag.1 hm)
      simp [hn]
      omega
  · rintro ⟨h1, h2⟩
    by_cases h0 : a.used = 0
    · have := hzero h0
      simp [this] at h2
    · simp [h0] at h1

theorem mp_isneg_spec_witness :
    ((mp_isneg sample_neg = MP_YES ↔ mp_value (MP_DIGIT_BIT header_28bit) sample_neg < 0) ∧
     ¬ (mp_iszero sample_neg = MP_YES ∧ mp_isneg sample_neg = MP_YES)) ∧
    mp_isneg sample_neg = MP_YES ∧ mp_isneg sample_zero = MP_NO ∧
    mp_iszero sample_zero = MP_YES :=
  ⟨mp_isneg_spec header_28bit sample_neg (by decide) (by decide) (by decide) (by decide),
   by decide, by decide, by decide⟩

theorem default_prec_MP_DIGIT_BIT (d : Defines) :
    (default_prec d).MP_DIGIT_BIT = d.MP_DIGIT_BIT := by
  unfold default_prec
  split
  · rfl
  · split_ifs <;> rfl

/-- The five outcomes of an accepted header, by the branch of the chain taken. -/
theorem header_cases (d : Defines) (h : Header) (hok : tommath_h d = .ok h) :
    ((detected d).MP_8BIT = true ∧ h.mp_digit = .uint8_t ∧ h.mp_word = .uint16_t ∧
        MP_DIGIT_BIT h = 7) ∨
    ((detected d).MP_8BIT = false ∧ (detected d).MP_16BIT = true ∧ h.mp_digit = .uint16_t ∧
        h.mp_word = .uint32_t ∧ MP_DIGIT_BIT h = 15) ∨
    ((detected d).MP_8BIT = false ∧ (detected d).MP_16BIT = false ∧
        (detected d).MP_64BIT = true ∧
        h.mp_digit = .uint64_t ∧ h.mp_word = .uint128_t ∧ MP_DIGIT_BIT h = 60) ∨
    ((detected d).MP_8BIT = false ∧ (detected d).MP_16BIT = false ∧
        (detected d).MP_64BIT = false ∧ (detected d).MP_31BIT = true ∧
        h.mp_digit = .uint32_t ∧ h.mp_word = .uint64_t ∧ MP_DIGIT_BIT h = 31) ∨
    ((detected d).MP_8BIT = false ∧ (detected d).MP_16BIT = false ∧
        (detected d).MP_64BIT = false ∧ (detected d).MP_31BIT = false ∧
        h.mp_digit = .uint32_t ∧ h.mp_word = .uint64_t ∧ MP_DIGIT_BIT h = 28) := by
  simp only [tommath_h] at hok
  generalize detected d = e at hok ⊢
  unfold select_types at hok
  cases h8 : e.MP_8BIT <;> cases h16 : e.MP_16BIT <;> cases h64 : e.MP_64BIT <;>
    cases h31 : e.MP_31BIT <;> cases hdb : e.MP_DIGIT_BIT <;>
    simp [h8, h16, h64, h31, hdb, bind, Except.bind, default_digit_bit, pure,
      Except.pure] at hok <;>
    subst hok <;>
    simp [MP_DIGIT_BIT, default_prec_MP_DIGIT_BIT, CHAR_BIT]

/-- The digit type, word type and digit width of an accepted header. -/
theorem header_shapes (d : Defines) (h : Header) (hok : tommath_h d = .ok h) :
    (h.mp_digit = .uint8_t ∧ h.mp_word = .uint16_t ∧ MP_DIGIT_BIT h = 7) ∨
    (h.mp_digit = .uint16_t ∧ h.mp_word = .uint32_t ∧ MP_DIGIT_BIT h = 15) ∨
    (h.mp_digit = .uint64_t ∧ h.mp_word = .uint128_t ∧ MP_DIGIT_BIT h = 60) ∨
    (h.mp_digit = .uint32_t ∧ h.mp_word = .uint64_t ∧ MP_DIGIT_BIT h = 31) ∨
    (h.mp_digit = .uint32_t ∧ h.mp_word = .uint64_t ∧ MP_DIGIT_BIT h = 28) := by
  rcases header_cases d h hok with c | c | c | c | c <;> simp [c]

/-- C3: in every configuration `MP_MASK`, computed in the promoted digit type
without wrap-around, is `2^MP_DIGIT_BIT - 1`; `MP_DIGIT_MAX` is the same; and
masking any `mp_digit` value gives its residue modulo `2^MP_DIGIT_BIT`, which
meets the digit invariant. -/
theorem MP_MASK_spec (d : Defines) (h : Header) (hok : tommath_h d = .ok h) :
    MP_MASK h = some (2 ^ MP_DIGIT_BIT h - 1) ∧
    MP_DIGIT_MAX h = MP_MASK h ∧
    ∀ m, MP_MASK h = some m → ∀ x, x < 2 ^ h.mp_digit.bits →
      x &&& m = x % 2 ^ MP_DIGIT_BIT h ∧ x &&& m < 2 ^ MP_DIGIT_BIT h := by
  have hmask : MP_MASK h = some (2 ^ MP_DIGIT_BIT h - 1) := by
    rcases header_shapes d h hok with c | c | c | c | c <;>
      obtain ⟨hdig, -, hB⟩ := c <;>
      simp only [MP_MASK, hdig, hB] <;> rfl
  refine ⟨hmask, rfl, ?_⟩
  intro m hm x _
  rw [hmask] at hm
  injection hm with hm
  subst hm
  rw [Nat.and_pow_two_sub_one_eq_mod]
  exact ⟨rfl, Nat.mod_lt _ (Nat.two_pow_pos _)⟩

theorem MP_MASK_spec_witness :
    (MP_MASK header_8bit = some (2 ^ MP_DIGIT_BIT header_8bit - 1) ∧
     MP_DIGIT_MAX header_8bit = MP_MASK header_8bit ∧
     ∀ m, MP_MASK header_8bit = some m → ∀ x, x < 2 ^ header_8bit.mp_digit.bits →
       x &&& m = x % 2 ^ MP_DIGIT_BIT header_8bit ∧ x &&& m < 2 ^ MP_DIGIT_BIT header_8bit) ∧
    MP_MASK header_8bit = some 127 ∧ MP_MASK header_28bit = some 268435455 ∧
    (200 : Nat) &&& 127 = 72 :=
  ⟨MP_MASK_spec { MP_8BIT := true } header_8bit rfl, by decide, by decide, by decide⟩
theorem detected_MP_8BIT (d : Defines) : (detected d).MP_8BIT = d.MP_8BIT := by
  simp only [detected, detect64, no_128bit, no_file]
  split_ifs <;> rfl

theorem detected_MP_16BIT (d : Defines) : (detected d).MP_16BIT = d.MP_16BIT := by
  simp only [detected, detect64, no_128bit, no_file]
  split_ifs <;> rfl

theorem detected_MP_31BIT (d : Defines) : (detected d).MP_31BIT = d.MP_31BIT := by
  simp only [detected, detect64, no_128bit, no_file]
  split_ifs <;> rfl

theorem detected_MP_64BIT_of_defined (d : Defines) (h64 : d.MP_64BIT = true) :
    (detected d).MP_64BIT = true := by
  simp only [detected, detect64, no_128bit, no_file]
  split_ifs <;> simp [h64]

/-- C4: every accepted combination of the configuration macros gives an
`MP_DIGIT_BIT` among 7, 15, 28, 31, 60: 7 in the `MP_8BIT` branch, 15 in the
`MP_16BIT` branch, 60 in the `MP_64BIT` branch, 31 in the default branch with
`MP_31BIT` and 28 in the default branch without it (the branches are tried in
this order, `MP_64BIT` as it stands after the 64-bit detection); and each of
the five values is produced by some configuration. -/
theorem MP_DIGIT_BIT_values (d : Defines) (h : Header) (hok : tommath_h d = .ok h) :
    (MP_DIGIT_BIT h = 7 ∨ MP_DIGIT_BIT h = 15 ∨ MP_DIGIT_BIT h = 28 ∨
      MP_DIGIT_BIT h = 31 ∨ MP_DIGIT_BIT h = 60) ∧
    (d.MP_8BIT = true → MP_DIGIT_BIT h = 7) ∧
    (d.MP_8BIT = false → d.MP_16BIT = true → MP_DIGIT_BIT h = 15) ∧
    (d.MP_8BIT = false → d.MP_16BIT = false → (detected d).MP_64BIT = true →
      MP_DIGIT_BIT h = 60) ∧
    (d.MP_8BIT = false → d.MP_16BIT = false → d.MP_64BIT = true → MP_DIGIT_BIT h = 60) ∧
    (d.MP_8BIT = false → d.MP_16BIT = false → (detected d).MP_64BIT = false →
      d.MP_31BIT = true → MP_DIGIT_BIT h = 31) ∧
    (d.MP_8BIT = false → d.MP_16BIT = false → (detected d).MP_64BIT = false →
      d.MP_31BIT = false → MP_DIGIT_BIT h = 28) ∧
    (∃ h7, tommath_h { MP_8BIT := true } = .ok h7 ∧ MP_DIGIT_BIT h7 = 7) ∧
    (∃ h15, tommath_h { MP_16BIT := true } = .ok h15 ∧ MP_DIGIT_BIT h15 = 15) ∧
    (∃ h28, tommath_h {} = .ok h28 ∧ MP_DIGIT_BIT h28 = 28) ∧
    (∃ h31, tommath_h { MP_31BIT := true } = .ok h31 ∧ MP_DIGIT_BIT h31 = 31) ∧
    (∃ h60, tommath_h { MP_64BIT := true } = .ok h60 ∧ MP_DIGIT_BIT h60 = 60) := by
  have hc := header_cases d h hok
  have h64 := detected_MP_64BIT_of_defined d
  rw [detected_MP_8BIT, detected_MP_16BIT, detected_MP_31BIT] at hc
  refine ⟨?_, ?_, ?_, ?_, ?_, ?_, ?_, ⟨_, rfl, rfl⟩, ⟨_, rfl, rfl⟩, ⟨_, rfl, rfl⟩,
    ⟨_, rfl, rfl⟩, ⟨_, rfl, rfl⟩⟩ <;>
  rcases hc with c | c | c | c | c <;> simp_all

theorem MP_DIGIT_BIT_values_witness :
    MP_DIGIT_BIT header_8bit = 7 ∧ MP_DIGIT_BIT header_28bit = 28 :=
  ⟨(MP_DIGIT_BIT_values { MP_8BIT := true } header_8bit rfl).2.1 rfl,
   (MP_DIGIT_BIT_values {} header_28bit rfl).2.2.2.2.2.2.1 rfl rfl rfl rfl⟩

theorem digit_mul_add_lt (B W x y c : Nat) (hW : 2 * B ≤ W) (hx : x < 2 ^ B)
    (hy : y < 2 ^ B) (hc : c < 2 ^ B) : x * y + c < 2 ^ W := by
  have hle : 2 ^ (2 * B) ≤ 2 ^ W := Nat.pow_le_pow_right (by norm_num) hW
  have hsq : 2 ^ (2 * B) = 2 ^ B * 2 ^ B := by rw [two_mul, pow_add]
  obtain ⟨k, hk⟩ : ∃ k, 2 ^ B = k + 1 := ⟨2 ^ B - 1, by have := Nat.two_pow_pos B; omega⟩
  rw [hsq, hk] at hle
  rw [hk] at hx hy hc
  have hxy : x * y ≤ k * k := Nat.mul_le_mul (by omega) (by omega)
  nlinarith

/-- The widths of the chosen types against the digit width. -/
theorem header_widths (d : Defines) (h : Header) (hok : tommath_h d = .ok h) :
    MP_DIGIT_BIT h + 1 ≤ h.mp_digit.bits ∧ 2 * MP_DIGIT_BIT h + 1 ≤ h.mp_word.bits ∧
      7 ≤ MP_DIGIT_BIT h := by
  rcases header_shapes d h hok with c | c | c | c | c <;>
    obtain ⟨hdig, hword, hB⟩ := c <;>
    simp [hdig, hword, hB, CUInt.bits, CUInt.sizeof, CHAR_BIT]

/-- C5: in every configuration `mp_digit` has at least `MP_DIGIT_BIT + 1`
bits, `mp_word` at least `2*MP_DIGIT_BIT + 1` bits, and `MP_DIGIT_BIT` is at
least 7; so a sum of two digits fits in an `mp_digit` and a product of two
digits plus a digit-sized carry fits in an `mp_word`. -/
theorem type_widths_spec (d : Defines) (h : Header) (hok : tommath_h d = .ok h) :
    MP_DIGIT_BIT h + 1 ≤ h.mp_digit.bits ∧
    2 * MP_DIGIT_BIT h + 1 ≤ h.mp_word.bits ∧
    7 ≤ MP_DIGIT_BIT h ∧
    (∀ x y, x < 2 ^ MP_DIGIT_BIT h → y < 2 ^ MP_DIGIT_BIT h →
      x + y < 2 ^ h.mp_digit.bits) ∧
    (∀ x y c, x < 2 ^ MP_DIGIT_BIT h → y < 2 ^ MP_DIGIT_BIT h → c < 2 ^ MP_DIGIT_BIT h →
      x * y + c < 2 ^ h.mp_word.bits) := by
  obtain ⟨h1, h2, h3⟩ := header_widths d h hok
  refine ⟨h1, h2, h3, ?_, ?_⟩
  · intro x y hx hy
    have hle : 2 ^ (MP_DIGIT_BIT h + 1) ≤ 2 ^ h.mp_digit.bits :=
      Nat.pow_le_pow_right (by norm_num) h1
    rw [pow_succ] at hle
    omega
  · intro x y c hx hy hc
    exact digit_mul_add_lt (MP_DIGIT_BIT h) _ x y c (by omega) hx hy hc

theorem type_widths_spec_witness :
    (MP_DIGIT_BIT header_8bit + 1 ≤ header_8bit.mp_digit.bits ∧
     2 * MP_DIGIT_BIT header_8bit + 1 ≤ header_8bit.mp_word.bits ∧
     7 ≤ MP_DIGIT_BIT header_8bit ∧
     (∀ x y, x < 2 ^ MP_DIGIT_BIT header_8bit → y < 2 ^ MP_DIGIT_BIT header_8bit →
       x + y < 2 ^ header_8bit.mp_digit.bits) ∧
     (∀ x y c, x < 2 ^ MP_DIGIT_BIT header_8bit → y < 2 ^ MP_DIGIT_BIT header_8bit →
       c < 2 ^ MP_DIGIT_BIT header_8bit → x * y + c < 2 ^ header_8bit.mp_word.bits)) ∧
    header_8bit.mp_digit.bits = 8 ∧ header_8bit.mp_word.bits = 16 ∧
    127 * 127 + 127 < 2 ^ header_8bit.mp_word.bits :=
  ⟨type_widths_spec { MP_8BIT := true } header_8bit rfl, by decide, by decide, by decide⟩
theorem checked_size (size_bits v : Nat) (hs : INT_BIT ≤ size_bits) (hv : v < 2 ^ 32) :
    checked (CType.unsigned size_bits) v = some v := by
  have hle : 2 ^ INT_BIT ≤ 2 ^ size_bits := Nat.pow_le_pow_right (by norm_num) hs
  simp only [INT_BIT] at hle
  have hlt : v < 2 ^ size_bits := by omega
  simp [checked, CType.fits, hlt]

theorem checked_int (v : Nat) (hv : v < 2 ^ 31) : checked CType.int v = some v := by
  have hv2 : v < 2147483648 := by omega
  simp [checked, CType.fits, INT_BIT, hv2]

theorem checked_uint (v : Nat) (hv : v < 2 ^ 32) : checked (CType.unsigned 32) v = some v := by
  have hv2 : v < 4294967296 := by omega
  simp [checked, CType.fits, hv2]

/-- The array size macro evaluates, without wrap-around, to
`2^(word_bits - 2*MP_DIGIT_BIT + 1)`. -/
theorem warray_value (d : Defines) (h : Header) (size_bits : Nat)
    (hok : tommath_h d = .ok h) (hs : INT_BIT ≤ size_bits) :
    PRIVATE_MP_WARRAY size_bits h = some (2 ^ (h.mp_word.bits - 2 * MP_DIGIT_BIT h + 1)) := by
  have f := fun v => checked_size size_bits v hs
  rcases header_shapes d h hok with c | c | c | c | c <;>
    obtain ⟨-, hword, hB⟩ := c <;>
    simp only [PRIVATE_MP_WARRAY, mul, sub, add, hword, hB, CUInt.bits, CUInt.sizeof,
      CHAR_BIT] <;>
    simp [f, checked_int, checked_uint, shl, CType.width, INT_BIT]

/-- C7: in every configuration `PRIVATE_MP_WARRAY`, a shift of `1u` in 32-bit
unsigned arithmetic, is exactly `2^(word_bits - 2*MP_DIGIT_BIT + 1)`: the shift
count is not negative and below 32, the value is 512 for 28- and 60-bit digits
and 8 for 7-, 15- and 31-bit digits, and it is at least
`2 * 2^(word_bits - 2*MP_DIGIT_BIT)`. -/
theorem PRIVATE_MP_WARRAY_spec (d : Defines) (h : Header) (size_bits : Nat)
    (hok : tommath_h d = .ok h) (hs : INT_BIT ≤ size_bits) :
    PRIVATE_MP_WARRAY size_bits h = some (2 ^ (h.mp_word.bits - 2 * MP_DIGIT_BIT h + 1)) ∧
    2 * MP_DIGIT_BIT h ≤ h.mp_word.bits ∧
    h.mp_word.bits - 2 * MP_DIGIT_BIT h + 1 < 32 ∧
    (MP_DIGIT_BIT h = 28 ∨ MP_DIGIT_BIT h = 60 → PRIVATE_MP_WARRAY size_bits h = some 512) ∧
    (MP_DIGIT_BIT h = 7 ∨ MP_DIGIT_BIT h = 15 ∨ MP_DIGIT_BIT h = 31 →
      PRIVATE_MP_WARRAY size_bits h = some 8) ∧
    ∀ w, PRIVATE_MP_WARRAY size_bits h = some w →
      2 * 2 ^ (h.mp_word.bits - 2 * MP_DIGIT_BIT h) ≤ w := by
  have hv := warray_value d h size_bits hok hs
  refine ⟨hv, ?_, ?_, ?_, ?_, ?_⟩
  · rcases header_shapes d h hok with c | c | c | c | c <;>
      obtain ⟨-, hword, hB⟩ := c <;>
      simp [hword, hB, CUInt.bits, CUInt.sizeof, CHAR_BIT]
  · rcases header_shapes d h hok with c | c | c | c | c <;>
      obtain ⟨-, hword, hB⟩ := c <;>
      simp [hword, hB, CUInt.bits, CUInt.sizeof, CHAR_BIT]
  · rw [hv]
    rcases header_shapes d h hok with c | c | c | c | c <;>
      obtain ⟨-, hword, hB⟩ := c <;>
      simp [hword, hB, CUInt.bits, CUInt.sizeof, CHAR_BIT]
  · rw [hv]
    rcases header_shapes d h hok with c | c | c | c | c <;>
      obtain ⟨-, hword, hB⟩ := c <;>
      simp [hword, hB, CUInt.bits, CUInt.sizeof, CHAR_BIT]
  · intro w hw
    rw [hv] at hw
    injection hw with hw
    rw [← hw, pow_succ]
    omega

theorem PRIVATE_MP_WARRAY_spec_witness :
    PRIVATE_MP_WARRAY 64 header_28bit = some 512 ∧ PRIVATE_MP_WARRAY 32 header_8bit = some 8 :=
  ⟨(PRIVATE_MP_WARRAY_spec {} header_28bit 64 rfl (by decide)).2.2.2.1 (Or.inl rfl),
   (PRIVATE_MP_WARRAY_spec { MP_8BIT := true } header_8bit 32 rfl (by decide)).2.2.2.2.1
     (Or.inl rfl)⟩
theorem zipWith_mul_sum_le (k : Nat) (xs : List Nat) :
    ∀ ys : List Nat, (∀ x ∈ xs, x ≤ k) → (∀ y ∈ ys, y ≤ k) →
      (List.zipWith (fun x y => x * y) xs ys).sum ≤ xs.length * (k * k) := by
  induction xs with
  | nil => intro ys _ _; simp
  | cons x xs ih =>
    intro ys hx hy
    cases ys with
    | nil => simp
    | cons y ys =>
      have hx0 : x ≤ k := hx x (List.mem_cons_self _ _)
      have hy0 : y ≤ k := hy y (List.mem_cons_self _ _)
      have hrec := ih ys (fun a ha => hx a (List.mem_cons_of_mem _ ha))
        (fun a ha => hy a (List.mem_cons_of_mem _ ha))
      have hxy : x * y ≤ k * k := Nat.mul_le_mul hx0 hy0
      simp only [List.zipWith_cons_cons, List.sum_cons, List.length_cons]
      rw [Nat.add_mul, Nat.one_mul]
      omega

/-- A column of at most `2^(W - 2B)` products of `B`-bit digits, added to the
carry of an accumulator below `2^W`, stays below `2^W`. -/
theorem column_bound (B W n acc : Nat) (xs ys : List Nat) (hW : 2 * B ≤ W)
    (hn : n ≤ 2 ^ (W - 2 * B)) (hxl : xs.length = n)
    (hx : ∀ x ∈ xs, x < 2 ^ B) (hy : ∀ y ∈ ys, y < 2 ^ B) (hacc : acc < 2 ^ W) :
    comba_column (comba_carry B acc) xs ys < 2 ^ W := by
  obtain ⟨k, hk⟩ : ∃ k, 2 ^ B = k + 1 := ⟨2 ^ B - 1, by have := Nat.two_pow_pos B; omega⟩
  have hsplit : 2 ^ W = 2 ^ (W - 2 * B) * ((k + 1) * (k + 1)) := by
    rw [← hk, ← pow_add, ← two_mul, ← pow_add]
    congr 1
    omega
  generalize 2 ^ (W - 2 * B) = K at hn hsplit
  have hsum := zipWith_mul_sum_le k xs ys
    (fun x hx1 => by have := hx x hx1; omega) (fun y hy1 => by have := hy y hy1; omega)
  rw [hxl] at hsum
  have hcarry : comba_carry B acc < K * (k + 1) := by
    unfold comba_carry
    rw [hk, Nat.div_lt_iff_lt_mul (Nat.succ_pos k)]
    rw [hsplit] at hacc
    calc acc < K * ((k + 1) * (k + 1)) := hacc
      _ = K * (k + 1) * (k + 1) := by ring
  have hnk : n * (k * k) ≤ K * (k * k) := Nat.mul_le_mul_right _ hn
  unfold comba_column
  rw [hsplit]
  have hexp : K * ((k + 1) * (k + 1)) = K * (k * k) + K * (k + 1) + K * k := by ring
  omega

/-- C6, as amended: in every configuration, when the operand size `n` is at
most half of `PRIVATE_MP_WARRAY` (that is, `n <= 2^(word_bits - 2*MP_DIGIT_BIT)`),
the sum of the `n` products of a Comba column plus the carry shifted down from
the accumulator of the previous column is below `2^word_bits`. -/
theorem comba_column_fits (d : Defines) (h : Header) (size_bits w n acc : Nat)
    (xs ys : List Nat) (hok : tommath_h d = .ok h) (hs : INT_BIT ≤ size_bits)
    (hw : PRIVATE_MP_WARRAY size_bits h = some w) (hn : 2 * n ≤ w)
    (hxl : xs.length = n) (hyl : ys.length = n)
    (hx : ∀ x ∈ xs, x < 2 ^ MP_DIGIT_BIT h) (hy : ∀ y ∈ ys, y < 2 ^ MP_DIGIT_BIT h)
    (hacc : acc < 2 ^ h.mp_word.bits) :
    comba_column (comba_carry (MP_DIGIT_BIT h) acc) xs ys < 2 ^ h.mp_word.bits := by
  have _ := hyl
  have hv := warray_value d h size_bits hok hs
  have hW : 2 * MP_DIGIT_BIT h ≤ h.mp_word.bits := by
    have := (header_widths d h hok).2.1
    omega
  rw [hv] at hw
  injection hw with hw
  rw [← hw, pow_succ] at hn
  exact column_bound (MP_DIGIT_BIT h) h.mp_word.bits n acc xs ys hW (by omega) hxl hx hy hacc

theorem comba_column_fits_witness :
    comba_column (comba_carry (MP_DIGIT_BIT header_8bit) 65535) [127, 127, 127, 127]
      [127, 127, 127, 127] < 2 ^ header_8bit.mp_word.bits ∧
    comba_column (comba_carry (MP_DIGIT_BIT header_8bit) 65535) [127, 127, 127, 127]
      [127, 127, 127, 127] = 65027 :=
  ⟨comba_column_fits { MP_8BIT := true } header_8bit 32 8 4 65535 [127, 127, 127, 127]
    [127, 127, 127, 127] rfl (by decide) (by decide) (by decide) rfl rfl (by decide)
    (by decide) (by decide), by decide⟩

/-- C6 fails as stated: with `MP_8BIT` (7-bit digits, 16-bit word,
`PRIVATE_MP_WARRAY = 8`) an operand size of 5 is below the limit, yet the
column of five products `127 * 127` is 80645, above the 16-bit accumulator. -/
theorem comba_column_overflow :
    tommath_h { MP_8BIT := true } = .ok header_8bit ∧
    PRIVATE_MP_WARRAY 32 header_8bit = some 8 ∧
    [127, 127, 127, 127, 127].length = 5 ∧ 5 < 8 ∧
    (∀ x ∈ [127, 127, 127, 127, 127], x < 2 ^ MP_DIGIT_BIT header_8bit) ∧
    comba_column (comba_carry (MP_DIGIT_BIT header_8bit) 0) [127, 127, 127, 127, 127]
      [127, 127, 127, 127, 127] = 80645 ∧
    ¬ (comba_column (comba_carry (MP_DIGIT_BIT header_8bit) 0) [127, 127, 127, 127, 127]
      [127, 127, 127, 127, 127] < 2 ^ header_8bit.mp_word.bits) := by
  refine ⟨rfl, by decide, rfl, by decide, by decide, by decide, by decide⟩

/-- The bound of half the array size is sharp in every configuration: one
more product of maximal digits overflows the accumulator. -/
theorem comba_column_sharp (d : Defines) (h : Header) (hok : tommath_h d = .ok h) :
    2 ^ h.mp_word.bits ≤
      comba_column 0
        (List.replicate (2 ^ (h.mp_word.bits - 2 * MP_DIGIT_BIT h) + 1)
          (2 ^ MP_DIGIT_BIT h - 1))
        (List.replicate (2 ^ (h.mp_word.bits - 2 * MP_DIGIT_BIT h) + 1)
          (2 ^ MP_DIGIT_BIT h - 1)) := by
  have hsum : ∀ n a : Nat,
      (List.zipWith (fun x y => x * y) (List.replicate n a) (List.replicate n a)).sum
        = n * (a * a) := by
    intro n a
    induction n with
    | zero => simp
    | succ n ih =>
      simp only [List.replicate_succ, List.zipWith_cons_cons, List.sum_cons, ih]
      ring
  unfold comba_column
  rw [hsum]
  rcases header_shapes d h hok with c | c | c | c | c <;>
    obtain ⟨-, hword, hB⟩ := c <;>
    simp [hword, hB, CUInt.bits, CUInt.sizeof, CHAR_BIT]
theorem detected_MP_LOW_MEM (d : Defines) : (detected d).MP_LOW_MEM = d.MP_LOW_MEM := by
  simp only [detected, detect64, no_128bit, no_file]
  split_ifs <;> rfl

theorem detected_MP_PREC (d : Defines) : (detected d).MP_PREC = d.MP_PREC := by
  simp only [detected, detect64, no_128bit, no_file]
  split_ifs <;> rfl

/-- The precision macro after the header is the one `default_prec` sets on the
detected macro table: the type selection does not touch what it reads. -/
theorem header_prec (d : Defines) (h : Header) (hok : tommath_h d = .ok h) :
    h.defs.MP_PREC = (default_prec (detected d)).MP_PREC := by
  simp only [tommath_h] at hok
  generalize detected d = e at hok ⊢
  unfold select_types at hok
  cases h8 : e.MP_8BIT <;> cases h16 : e.MP_16BIT <;> cases h64 : e.MP_64BIT <;>
    cases h31 : e.MP_31BIT <;> cases hdb : e.MP_DIGIT_BIT <;>
    simp [h8, h16, h64, h31, hdb, bind, Except.bind, default_digit_bit, pure,
      Except.pure] at hok <;>
    subst hok <;>
    cases hp : e.MP_PREC <;> cases hl : e.MP_LOW_MEM <;>
    simp [default_prec, hp, hl, h8]

/-- C8, as amended: when the user does not supply `MP_PREC`, the default is 32
in every digit configuration (the 28-bit and the 8-bit one alike) unless
`MP_LOW_MEM` is defined; with `MP_LOW_MEM` it is 16 for `MP_8BIT` and 8 for
every other configuration. -/
theorem MP_PREC_default (d : Defines) (h : Header) (hok : tommath_h d = .ok h)
    (hnone : d.MP_PREC = none) :
    (d.MP_LOW_MEM = false → MP_PREC h = 32) ∧
    (d.MP_LOW_MEM = true → d.MP_8BIT = true → MP_PREC h = 16) ∧
    (d.MP_LOW_MEM = true → d.MP_8BIT = false → MP_PREC h = 8) := by
  have hp := header_prec d h hok
  have h1 := detected_MP_PREC d
  have h2 := detected_MP_LOW_MEM d
  have h3 := detected_MP_8BIT d
  rw [hnone] at h1
  unfold MP_PREC
  rw [hp]
  generalize detected d = e at h1 h2 h3
  refine ⟨?_, ?_, ?_⟩ <;> intros <;> simp_all [default_prec]

theorem MP_PREC_default_witness :
    MP_PREC header_28bit = 32 ∧ MP_PREC header_8bit = 32 ∧
    MP_PREC header_8bit_low_mem = 16 ∧ MP_PREC header_31bit_low_mem = 8 :=
  ⟨(MP_PREC_default {} header_28bit rfl rfl).1 rfl,
   (MP_PREC_default { MP_8BIT := true } header_8bit rfl rfl).1 rfl,
   (MP_PREC_default { MP_8BIT := true, MP_LOW_MEM := true } header_8bit_low_mem rfl rfl).2.1
     rfl rfl,
   (MP_PREC_default { MP_31BIT := true, MP_LOW_MEM := true } header_31bit_low_mem rfl
     rfl).2.2 rfl rfl⟩

/-- C8 fails as stated: with `MP_8BIT` and no user-supplied `MP_PREC` the
default precision is 32 (and 16 under `MP_LOW_MEM`), not 8. -/
theorem MP_PREC_8bit_not_8 :
    ({ MP_8BIT := true } : Defines).MP_PREC = none ∧
    tommath_h { MP_8BIT := true } = .ok header_8bit ∧
    MP_DIGIT_BIT header_8bit = 7 ∧
    MP_PREC header_8bit = 32 ∧ MP_PREC header_8bit ≠ 8 ∧
    tommath_h { MP_8BIT := true, MP_LOW_MEM := true } = .ok header_8bit_low_mem ∧
    MP_PREC header_8bit_low_mem = 16 ∧ MP_PREC header_8bit_low_mem ≠ 8 := by
  refine ⟨rfl, rfl, rfl, by decide, by decide, rfl, by decide, by decide⟩

/-- C9: the five result codes are pairwise distinct, `MP_OKAY` is 0 and every
error code is negative, so a code of the set equals `MP_OKAY` exactly when it
is not negative; `MP_RANGE` is `MP_VAL` and adds no sixth code. -/
theorem result_codes_spec :
    List.Pairwise (fun a b => a ≠ b) [MP_OKAY, MP_MEM, MP_VAL, MP_ITER, MP_ERR] ∧
    MP_OKAY = 0 ∧ MP_MEM < 0 ∧ MP_VAL < 0 ∧ MP_ITER < 0 ∧ MP_ERR < 0 ∧
    (MP_OKAY = MP_OKAY ↔ 0 ≤ MP_OKAY) ∧ (MP_MEM = MP_OKAY ↔ 0 ≤ MP_MEM) ∧
    (MP_VAL = MP_OKAY ↔ 0 ≤ MP_VAL) ∧ (MP_ITER = MP_OKAY ↔ 0 ≤ MP_ITER) ∧
    (MP_ERR = MP_OKAY ↔ 0 ≤ MP_ERR) ∧
    MP_RANGE = MP_VAL ∧ MP_RANGE ∈ [MP_OKAY, MP_MEM, MP_VAL, MP_ITER, MP_ERR] := by
  decide

theorem int_checked_of_range (x : Int) (hx : INT_MIN ≤ x ∧ x ≤ INT_MAX) :
    int_checked x = some x := by
  unfold int_checked
  exact if_pos hx

/-- The macro in terms of the values of its two pasted expressions. -/
theorem mp_prime_random_eq {α β γ ρ : Type} (ex : α → Int → Int → Int → β → γ → ρ)
    (a : α) (t : Int) (size bbs : List Tok) (cb : β) (dat : γ) (v w : Int)
    (hs : c_eval ([.lparen, .lparen] ++ size ++
      [.rparen, .star, .num 8, .rparen, .plus, .num 1]) = some v)
    (hv : INT_MIN ≤ v ∧ v ≤ INT_MAX)
    (hb : c_eval ([.lparen] ++ bbs ++
      [.eqeq, .num 1, .rparen, .question, .num MP_PRIME_BBS.toNat, .colon, .num 0]) = some w) :
    mp_prime_random ex a t size bbs cb dat = some (ex a t v w cb dat) := by
  unfold mp_prime_random
  rw [hs, hb]
  show (int_checked v >>= fun bits => some w >>= fun flags => pure (ex a t bits flags cb dat))
    = some (ex a t v w cb dat)
  rw [int_checked_of_range v hv]
  rfl

theorem c_eval_size (s : Nat) :
    c_eval ([.lparen, .lparen] ++ [.num s] ++
      [.rparen, .star, .num 8, .rparen, .plus, .num 1]) = some ((s : Int) * 8 + 1) := by
  simp [c_eval, c_parse, Tok.prec, Tok.apply]

theorem c_eval_bbs (b : Nat) :
    c_eval ([.lparen] ++ [.num b] ++
      [.eqeq, .num 1, .rparen, .question, .num MP_PRIME_BBS.toNat, .colon, .num 0]) =
      some (if b = 1 then MP_PRIME_BBS else 0) := by
  by_cases hb : b = 1 <;> simp [c_eval, c_parse, Tok.prec, Tok.apply, MP_PRIME_BBS, hb]

/-- The macro on literal arguments: for a constant `size >= 0` with
`size*8 + 1` representable as `int` and a constant `bbs`, `mp_prime_random`
calls `mp_prime_random_ex` with the bit size `size*8 + 1` and the flags
`MP_PRIME_BBS` when `bbs == 1`, 0 otherwise; and every prime whose bit length
is that size is larger than `2^(8*size)`. -/
theorem mp_prime_random_literal {α β γ ρ : Type} (ex : α → Int → Int → Int → β → γ → ρ)
    (a : α) (t : Int) (size bbs : Nat) (cb : β) (dat : γ)
    (hrep : (size : Int) * 8 + 1 ≤ INT_MAX) :
    mp_prime_random ex a t [.num size] [.num bbs] cb dat =
      some (ex a t ((size : Int) * 8 + 1) (if bbs = 1 then MP_PRIME_BBS else 0) cb dat) ∧
    ∀ p : Nat, Nat.Prime p → Nat.size p = size * 8 + 1 → 2 ^ (8 * size) < p := by
  constructor
  · have c2 : INT_MIN ≤ (size : Int) * 8 + 1 ∧ (size : Int) * 8 + 1 ≤ INT_MAX := by
      refine ⟨?_, hrep⟩
      unfold INT_MIN INT_BIT
      omega
    exact mp_prime_random_eq ex a t [.num size] [.num bbs] cb dat _ _ (c_eval_size size) c2
      (c_eval_bbs bbs)
  · intro p hp hs
    have hle : 2 ^ (8 * size) ≤ p := Nat.lt_size.1 (by omega)
    have hne : p ≠ 2 ^ (8 * size) := by
      intro hpe
      rcases Nat.eq_zero_or_pos size with hz | hpos
      · subst hz
        simp at hpe
        exact Nat.not_prime_one (hpe ▸ hp)
      · have hdvd : 2 ∣ p := hpe ▸ dvd_pow_self 2 (by omega)
        have h2 : 2 = p := (Nat.prime_dvd_prime_iff_eq Nat.prime_two hp).1 hdvd
        have hbig : 2 ^ 8 ≤ 2 ^ (8 * size) := Nat.pow_le_pow_right (by norm_num) (by omega)
        omega
    exact lt_of_le_of_ne hle (Ne.symm hne)

theorem nat_size_257 : Nat.size 257 = 9 :=
  le_antisymm (Nat.size_le.2 (by norm_num)) (Nat.lt_size.2 (by norm_num))

theorem mp_prime_random_literal_witness :
    mp_prime_random (fun (_ : Unit) (_ : Int) (bits flags : Int) (_ : Unit) (_ : Unit) =>
      (bits, flags)) () 8 [.num 1] [.num 1] () () = some (9, MP_PRIME_BBS) ∧
    2 ^ 8 < 257 :=
  ⟨(mp_prime_random_literal (fun (_ : Unit) (_ : Int) (bits flags : Int) (_ : Unit)
      (_ : Unit) => (bits, flags)) () 8 1 1 () () (by decide)).1,
   (mp_prime_random_literal (fun (_ : Unit) (_ : Int) (bits flags : Int) (_ : Unit)
      (_ : Unit) => (bits, flags)) () 8 1 1 () () (by decide)).2 257
      (by norm_num) nat_size_257⟩

/-- C10 fails on the code: the call `mp_prime_random(a, 8, 1, 1 | 2, cb, dat)`
has `bbs` of value 3, not 1, so the claim gives the flags 0; the macro pastes
the argument before `==1` without parentheses, the flags expression reads
`1 | (2==1)` and `mp_prime_random_ex` gets `MP_PRIME_BBS`.  The same argument
in parentheses gives 0, and the argument `size`, which the macro does
parenthesise, is not affected (`1 | 2` gives the bit size `3*8 + 1`). -/
theorem mp_prime_random_bbs_pasted :
    c_eval [.num 1, .bar, .num 2] = some 3 ∧
    mp_prime_random (fun (_ : Unit) (_ : Int) (bits flags : Int) (_ : Unit) (_ : Unit) =>
      (bits, flags)) () 8 [.num 1] [.num 1, .bar, .num 2] () () = some (9, MP_PRIME_BBS) ∧
    mp_prime_random (fun (_ : Unit) (_ : Int) (bits flags : Int) (_ : Unit) (_ : Unit) =>
      (bits, flags)) () 8 [.num 1] [.lparen, .num 1, .bar, .num 2, .rparen] () ()
      = some (9, 0) ∧
    mp_prime_random (fun (_ : Unit) (_ : Int) (bits flags : Int) (_ : Unit) (_ : Unit) =>
      (bits, flags)) () 8 [.num 1, .bar, .num 2] [.num 3] () () = some (3 * 8 + 1, 0) := by
  decide

theorem platform64_no_file (d : Defines) : platform64 (no_file d) = platform64 d := by
  unfold no_file
  split_ifs <;> rfl

theorem platform64_no_128bit (d : Defines) : platform64 (no_128bit d) = platform64 d := by
  unfold no_128bit
  split_ifs <;> rfl

/-- The conditional sections reach no `#error` directive unless `MP_8BIT` or
`MP_16BIT` is defined. -/
theorem tommath_h_accepts (d : Defines) (h8 : d.MP_8BIT = false) (h16 : d.MP_16BIT = false) :
    ∃ h, tommath_h d = .ok h := by
  have e8 := detected_MP_8BIT d
  have e16 := detected_MP_16BIT d
  rw [h8] at e8
  rw [h16] at e16
  simp only [tommath_h]
  generalize detected d = e at e8 e16
  unfold select_types
  cases h64 : e.MP_64BIT <;> cases h31 : e.MP_31BIT <;>
    simp [e8, e16, h64, h31, bind, Except.bind, default_digit_bit, pure, Except.pure]

/-- C11: when the user defines none of `MP_8BIT`, `MP_16BIT`, `MP_32BIT`,
`MP_64BIT` and `MP_31BIT`, the detection defines `MP_64BIT`, and the header
selects the 64-bit configuration (60-bit digits, 64-bit `mp_digit`, 128-bit
`mp_word`), exactly when one of the nineteen 64-bit platform macros of lines
31-36 is defined, `__GNUC__` is defined and none of `_MSC_VER`, `__LLP64__`,
`__e2k__`, `__LCC__` is; in every other case the header gives the default
configuration (28-bit digits, 32-bit `mp_digit`, 64-bit `mp_word`). -/
theorem auto_detection_spec (d : Defines) (h : Header) (hok : tommath_h d = .ok h)
    (h8 : d.MP_8BIT = false) (h16 : d.MP_16BIT = false) (h32 : d.MP_32BIT = false)
    (h64 : d.MP_64BIT = false) (h31 : d.MP_31BIT = false) :
    ((detected d).MP_64BIT = true ↔
      ((d.__x86_64__ = true ∨ d._M_X64 = true ∨ d._M_AMD64 = true ∨
        d.__powerpc64__ = true ∨ d.__ppc64__ = true ∨ d.__PPC64__ = true ∨
        d.__s390x__ = true ∨ d.__arch64__ = true ∨ d.__aarch64__ = true ∨
        d.__sparcv9 = true ∨ d.__sparc_v9__ = true ∨ d.__sparc64__ = true ∨
        d.__ia64 = true ∨ d.__ia64__ = true ∨ d.__itanium__ = true ∨ d._M_IA64 = true ∨
        d.__LP64__ = true ∨ d._LP64 = true ∨ d.__64BIT__ = true) ∧
       d.__GNUC__ = true ∧ d._MSC_VER = false ∧ d.__LLP64__ = false ∧
       d.__e2k__ = false ∧ d.__LCC__ = false)) ∧
    ((MP_DIGIT_BIT h = 60 ∧ h.mp_digit = .uint64_t ∧ h.mp_digit.bits = 64 ∧
        h.mp_word = .uint128_t ∧ h.mp_word.bits = 128) ↔
      ((d.__x86_64__ = true ∨ d._M_X64 = true ∨ d._M_AMD64 = true ∨
        d.__powerpc64__ = true ∨ d.__ppc64__ = true ∨ d.__PPC64__ = true ∨
        d.__s390x__ = true ∨ d.__arch64__ = true ∨ d.__aarch64__ = true ∨
        d.__sparcv9 = true ∨ d.__sparc_v9__ = true ∨ d.__sparc64__ = true ∨
        d.__ia64 = true ∨ d.__ia64__ = true ∨ d.__itanium__ = true ∨ d._M_IA64 = true ∨
        d.__LP64__ = true ∨ d._LP64 = true ∨ d.__64BIT__ = true) ∧
       d.__GNUC__ = true ∧ d._MSC_VER = false ∧ d.__LLP64__ = false ∧
       d.__e2k__ = false ∧ d.__LCC__ = false)) ∧
    (¬ ((d.__x86_64__ = true ∨ d._M_X64 = true ∨ d._M_AMD64 = true ∨
        d.__powerpc64__ = true ∨ d.__ppc64__ = true ∨ d.__PPC64__ = true ∨
        d.__s390x__ = true ∨ d.__arch64__ = true ∨ d.__aarch64__ = true ∨
        d.__sparcv9 = true ∨ d.__sparc_v9__ = true ∨ d.__sparc64__ = true ∨
        d.__ia64 = true ∨ d.__ia64__ = true ∨ d.__itanium__ = true ∨ d._M_IA64 = true ∨
        d.__LP64__ = true ∨ d._LP64 = true ∨ d.__64BIT__ = true) ∧
       d.__GNUC__ = true ∧ d._MSC_VER = false ∧ d.__LLP64__ = false ∧
       d.__e2k__ = false ∧ d.__LCC__ = false) →
      MP_DIGIT_BIT h = 28 ∧ h.mp_digit = .uint32_t ∧ h.mp_digit.bits = 32 ∧
        h.mp_word = .uint64_t ∧ h.mp_word.bits = 64) := by
  have hc := header_cases d h hok
  have hdet : (detected d).MP_64BIT =
      (platform64 d && d.__GNUC__ &&
        !(d._MSC_VER || d.__LLP64__ || d.__e2k__ || d.__LCC__)) := by
    have hy : ((no_file d).MP_8BIT = d.MP_8BIT ∧ (no_file d).MP_16BIT = d.MP_16BIT ∧
        (no_file d).MP_32BIT = d.MP_32BIT ∧ (no_file d).MP_64BIT = d.MP_64BIT) ∧
        (no_file d).__GNUC__ = d.__GNUC__ ∧
        ((no_file d)._MSC_VER = d._MSC_VER ∧ (no_file d).__LLP64__ = d.__LLP64__ ∧
         (no_file d).__e2k__ = d.__e2k__ ∧ (no_file d).__LCC__ = d.__LCC__) := by
      unfold no_file
      split_ifs <;> simp
    obtain ⟨⟨y8, y16, y32, y64⟩, yg, ym, yl, ye, yc⟩ := hy
    rw [h8] at y8
    rw [h16] at y16
    rw [h32] at y32
    rw [h64] at y64
    rw [← platform64_no_file d, ← yg, ← ym, ← yl, ← ye, ← yc]
    unfold detected
    generalize no_file d = y at y8 y16 y32 y64 ⊢
    unfold detect64
    rw [platform64_no_128bit]
    generalize platform64 y = p
    unfold no_128bit
    generalize (y._MSC_VER || y.__LLP64__ || y.__e2k__ || y.__LCC__) = m
    cases p <;> cases m <;> cases hg : y.__GNUC__ <;> simp [y8, y16, y32, y64, hg]
  rw [detected_MP_8BIT, detected_MP_16BIT, detected_MP_31BIT, hdet, h8, h16, h31] at hc
  have hp : platform64 d = true ↔
      (d.__x86_64__ = true ∨ d._M_X64 = true ∨ d._M_AMD64 = true ∨
       d.__powerpc64__ = true ∨ d.__ppc64__ = true ∨ d.__PPC64__ = true ∨
       d.__s390x__ = true ∨ d.__arch64__ = true ∨ d.__aarch64__ = true ∨
       d.__sparcv9 = true ∨ d.__sparc_v9__ = true ∨ d.__sparc64__ = true ∨
       d.__ia64 = true ∨ d.__ia64__ = true ∨ d.__itanium__ = true ∨ d._M_IA64 = true ∨
       d.__LP64__ = true ∨ d._LP64 = true ∨ d.__64BIT__ = true) := by
    simp only [platform64, Bool.or_eq_true, or_assoc]
  rw [hdet, ← hp]
  generalize platform64 d = p at hc ⊢
  refine ⟨?_, ?_⟩
  · simp only [Bool.and_eq_true, Bool.not_eq_true', Bool.or_eq_false_iff]
    tauto
  rcases hc with c | c | c | c | c
  · simp at c
  · simp at c
  · obtain ⟨-, -, hcond, hdig, hword, hB⟩ := c
    simp only [Bool.and_eq_true, Bool.not_eq_true', Bool.or_eq_false_iff] at hcond
    simp [hdig, hword, hB, CUInt.bits, CUInt.sizeof, CHAR_BIT, hcond]
  · simp at c
  · obtain ⟨-, -, hcond, -, hdig, hword, hB⟩ := c
    have hn : ¬ (p = true ∧ d.__GNUC__ = true ∧ d._MSC_VER = false ∧
          d.__LLP64__ = false ∧ d.__e2k__ = false ∧ d.__LCC__ = false) := by
      intro hh
      simp [hh] at hcond
    simp [hdig, hword, hB, CUInt.bits, CUInt.sizeof, CHAR_BIT, hn]

theorem auto_detection_spec_witness :
    (MP_DIGIT_BIT header_x86_64_gcc = 60 ∧ header_x86_64_gcc.mp_digit = .uint64_t ∧
      header_x86_64_gcc.mp_word = .uint128_t) ∧
    (MP_DIGIT_BIT header_aix64_gcc = 60 ∧ header_aix64_gcc.mp_digit = .uint64_t ∧
      header_aix64_gcc.mp_word = .uint128_t) ∧
    (MP_DIGIT_BIT header_gcc_32 = 28 ∧ header_gcc_32.mp_digit = .uint32_t ∧
      header_gcc_32.mp_word = .uint64_t) ∧
    (MP_DIGIT_BIT header_x64_msvc = 28 ∧ header_x64_msvc.mp_digit = .uint32_t ∧
      header_x64_msvc.mp_word = .uint64_t) ∧
    (MP_DIGIT_BIT header_e2k_lcc = 28 ∧ header_e2k_lcc.mp_digit = .uint32_t ∧
      header_e2k_lcc.mp_word = .uint64_t) :=
  ⟨(fun c => ⟨c.1, c.2.1, c.2.2.2.1⟩)
    ((auto_detection_spec { __x86_64__ := true, __GNUC__ := true } header_x86_64_gcc
      rfl rfl rfl rfl rfl rfl).2.1.2 (by decide)),
   (fun c => ⟨c.1, c.2.1, c.2.2.2.1⟩)
    ((auto_detection_spec { __64BIT__ := true, __GNUC__ := true } header_aix64_gcc
      rfl rfl rfl rfl rfl rfl).2.1.2 (by decide)),
   (fun c => ⟨c.1, c.2.1, c.2.2.2.1⟩)
    ((auto_detection_spec { __GNUC__ := true } header_gcc_32
      rfl rfl rfl rfl rfl rfl).2.2 (by decide)),
   (fun c => ⟨c.1, c.2.1, c.2.2.2.1⟩)
    ((auto_detection_spec { _M_X64 := true, _MSC_VER := true } header_x64_msvc
      rfl rfl rfl rfl rfl rfl).2.2 (by decide)),
   (fun c => ⟨c.1, c.2.1, c.2.2.2.1⟩)
    ((auto_detection_spec
      { __LP64__ := true, __GNUC__ := true, __e2k__ := true, __LCC__ := true }
      header_e2k_lcc rfl rfl rfl rfl rfl rfl).2.2 (by decide))⟩

/-- The mask macro evaluates to `2^MP_DIGIT_BIT - 1` in every accepted header. -/
theorem MP_MASK_value (d : Defines) (h : Header) (hok : tommath_h d = .ok h) :
    MP_MASK h = some (2 ^ MP_DIGIT_BIT h - 1) := by
  rcases header_shapes d h hok with c | c | c | c | c <;>
    obtain ⟨hdig, -, hB⟩ := c <;>
    simp only [MP_MASK, hdig, hB] <;> rfl

/-- Digits below `2^B` give a magnitude below `2^(B*n)`. -/
theorem mp_mag_lt (B : Nat) (dp : Nat → Nat) (n : Nat) (hd : ∀ i < n, dp i < 2 ^ B) :
    mp_mag B dp n < 2 ^ (B * n) := by
  induction n with
  | zero => simp [mp_mag]
  | succ n ih =>
    have h1 := ih (fun i hi => hd i (Nat.lt_succ_of_lt hi))
    have h2 : dp n + 1 ≤ 2 ^ B := hd n (Nat.lt_succ_self n)
    have h3 : (dp n + 1) * 2 ^ (B * n) ≤ 2 ^ B * 2 ^ (B * n) := Nat.mul_le_mul_right _ h2
    have h4 : 2 ^ (B * (n + 1)) = 2 ^ B * 2 ^ (B * n) := by
      rw [← pow_add]
      congr 1
      ring
    rw [Nat.add_mul, Nat.one_mul] at h3
    simp only [mp_mag]
    omega

/-- A non-zero digit at index `n` makes the magnitude at least `2^(B*n)`. -/
theorem mp_mag_ge (B : Nat) (dp : Nat → Nat) (n : Nat) (hn : dp n ≠ 0) :
    2 ^ (B * n) ≤ mp_mag B dp (n + 1) := by
  have h1 : 1 * 2 ^ (B * n) ≤ dp n * 2 ^ (B * n) :=
    Nat.mul_le_mul_right _ (Nat.pos_of_ne_zero hn)
  simp only [mp_mag]
  omega

/-- A longer number without a leading zero is larger than a shorter one. -/
theorem mp_mag_lt_of_shorter (B : Nat) (dp dq : Nat → Nat) (n m : Nat) (hnm : n < m)
    (hd : ∀ i < n, dp i < 2 ^ B) (htop : dq (m - 1) ≠ 0) :
    mp_mag B dp n < mp_mag B dq m := by
  obtain ⟨k, rfl⟩ : ∃ k, m = k + 1 := ⟨m - 1, by omega⟩
  have h1 := mp_mag_lt B dp n hd
  have h2 := mp_mag_ge B dq k (by simpa using htop)
  have h3 : 2 ^ (B * n) ≤ 2 ^ (B * k) :=
    Nat.pow_le_pow_right (by norm_num) (Nat.mul_le_mul_left B (by omega))
  omega

/-- Two digit strings of the same length with digits below `2^B` and the same
magnitude agree digit by digit. -/
theorem mp_mag_inj (B : Nat) (dp dq : Nat → Nat) (n : Nat)
    (hd : ∀ i < n, dp i < 2 ^ B) (hq : ∀ i < n, dq i < 2 ^ B)
    (heq : mp_mag B dp n = mp_mag B dq n) : ∀ i < n, dp i = dq i := by
  induction n with
  | zero => intro i hi; omega
  | succ n ih =>
    have hd1 := mp_mag_lt B dp n (fun i hi => hd i (Nat.lt_succ_of_lt hi))
    have hq1 := mp_mag_lt B dq n (fun i hi => hq i (Nat.lt_succ_of_lt hi))
    simp only [mp_mag] at heq
    have hpos : 0 < 2 ^ (B * n) := Nat.two_pow_pos _
    have hdiv : ∀ (x lo : Nat), lo < 2 ^ (B * n) →
        (lo + x * 2 ^ (B * n)) / 2 ^ (B * n) = x ∧ (lo + x * 2 ^ (B * n)) % 2 ^ (B * n) = lo := by
      intro x lo hlo
      constructor
      · rw [Nat.add_mul_div_right _ _ hpos, Nat.div_eq_of_lt hlo, Nat.zero_add]
      · rw [Nat.add_mul_mod_self_right, Nat.mod_eq_of_lt hlo]
    have htop : dp n = dq n := by
      rw [← (hdiv (dp n) _ hd1).1, ← (hdiv (dq n) _ hq1).1, heq]
    have hlow : mp_mag B dp n = mp_mag B dq n := by
      rw [← (hdiv (dp n) _ hd1).2, ← (hdiv (dq n) _ hq1).2, heq]
    have hrec := ih (fun i hi => hd i (Nat.lt_succ_of_lt hi))
      (fun i hi => hq i (Nat.lt_succ_of_lt hi)) hlow
    intro i hi
    rcases Nat.lt_succ_iff_lt_or_eq.1 hi with hlt | rfl
    · exact hrec i hlt
    · exact htop

/-- The magnitude is the absolute value of the denoted integer. -/
theorem mp_value_natAbs (B : Nat) (a : mp_int) :
    (mp_value B a).natAbs = mp_mag B a.dp a.used.toNat := by
  unfold mp_value
  split_ifs <;> simp

/-- C12: the representation is canonical under its invariants: two `mp_int`
values with `used >= 0`, digits below `used` at most `MP_MASK`, a non-zero top
digit when `used > 0`, sign `MP_ZPOS` or `MP_NEG` and `MP_ZPOS` when
`used == 0`, that denote the same integer have the same `used`, the same sign
and the same digit at every index below `used`. -/
theorem mp_int_canonical (d : Defines) (h : Header) (m : Nat) (a b : mp_int)
    (hok : tommath_h d = .ok h) (hm : MP_MASK h = some m)
    (hua : used_ok a) (hub : used_ok b) (hda : digits_le m a) (hdb : digits_le m b)
    (hta : top_ok a) (htb : top_ok b) (hsa : sign_ok a) (hsb : sign_ok b)
    (hval : mp_value (MP_DIGIT_BIT h) a = mp_value (MP_DIGIT_BIT h) b) :
    a.used = b.used ∧ a.sign = b.sign ∧ ∀ i : Nat, (i : Int) < a.used → a.dp i = b.dp i := by
  rw [MP_MASK_value d h hok] at hm
  injection hm with hm
  subst hm
  generalize MP_DIGIT_BIT h = B at *
  have hpos : 0 < 2 ^ B := Nat.two_pow_pos B
  have hda1 : ∀ i < a.used.toNat, a.dp i < 2 ^ B := fun i hi => by
    have := hda i hi
    omega
  have hdb1 : ∀ i < b.used.toNat, b.dp i < 2 ^ B := fun i hi => by
    have := hdb i hi
    omega
  have hmag : mp_mag B a.dp a.used.toNat = mp_mag B b.dp b.used.toNat := by
    rw [← mp_value_natAbs, ← mp_value_natAbs, hval]
  unfold used_ok at hua hub
  have hused : a.used.toNat = b.used.toNat := by
    rcases Nat.lt_trichotomy a.used.toNat b.used.toNat with hlt | heq | hgt
    · have := mp_mag_lt_of_shorter B a.dp b.dp _ _ hlt hda1 (htb (by omega))
      omega
    · exact heq
    · have := mp_mag_lt_of_shorter B b.dp a.dp _ _ hgt hdb1 (hta (by omega))
      omega
  have hu : a.used = b.used := by omega
  refine ⟨hu, ?_, ?_⟩
  · obtain ⟨hsa1, hsa0⟩ := hsa
    obtain ⟨hsb1, hsb0⟩ := hsb
    by_cases h0 : a.used = 0
    · rw [hsa0 h0, hsb0 (hu ▸ h0)]
    · have hne : mp_mag B a.dp a.used.toNat ≠ 0 := fun hz =>
        h0 ((mp_mag_eq_zero_iff B a hua hta).1 hz)
      have hnb : mp_mag B b.dp b.used.toNat ≠ 0 := hmag ▸ hne
      unfold mp_value at hval
      unfold MP_ZPOS MP_NEG at *
      rcases hsa1 with ha | ha <;> rcases hsb1 with hb | hb <;> rw [ha, hb] <;>
        simp [ha, hb] at hval <;> omega
  · intro i hi
    rw [← hused] at hmag hdb1
    exact mp_mag_inj B a.dp b.dp _ hda1 hdb1 hmag i (by omega)

theorem mp_int_canonical_witness :
    (sample_neg.used = sample_neg_wide.used ∧ sample_neg.sign = sample_neg_wide.sign ∧
      ∀ i : Nat, (i : Int) < sample_neg.used → sample_neg.dp i = sample_neg_wide.dp i) ∧
    sample_neg.alloc ≠ sample_neg_wide.alloc ∧ sample_neg.dp 2 ≠ sample_neg_wide.dp 2 ∧
    mp_value (MP_DIGIT_BIT header_28bit) sample_neg_wide = -268435461 :=
  ⟨mp_int_canonical {} header_28bit 268435455 sample_neg sample_neg_wide rfl (by decide)
    (by decide) (by decide) (by decide) (by decide) (by decide) (by decide) (by decide)
    (by decide) (by decide), by decide, by decide, by decide⟩

end Tommath
